import Mathlib

/-!
Shallow embedding of the `rust-fuzzylogic` crate (Mamdani fuzzy
inference) and proofs about it.

Modelling conventions:
* `f64` is modelled by `ℝ`; `f64::min` / `f64::max` on real (non-NaN)
  values coincide with `min` / `max` on `ℝ`.
* `HashMap<String, V>` is modelled by an association list
  `List (String × V)` with `alookup` as `get` and `insertAssoc` as the
  overwriting `insert`.  Iteration order of the Rust `HashMap` is
  unspecified; the claims proved here only concern lookup results,
  which are order-independent.
* Fallible Rust functions returning `Result<T, FuzzyError>` are
  modelled with `Except FuzzyError T`.
* Behaviour that is specific to IEEE-754 (NaN, infinities) is modelled
  separately with the `FFloat` type further below; arithmetic on finite
  values is idealised as exact real arithmetic there.
-/

namespace Rustfuzz

noncomputable section

/-- Error enum of `src/error.rs` (`MissingSpace`). -/
inductive MissingSpace
  | Var
  | Input
  deriving DecidableEq, Repr

/-- Error enum of `src/error.rs` (`FuzzyError`), including the
`NotFound` variant used by `mamdani.rs` and `rule.rs`. -/
inductive FuzzyError
  | BadArity
  | EmptyInput
  | TypeMismatch
  | OutOfBounds
  | NotFound (space : MissingSpace) (key : String)
  deriving DecidableEq, Repr

/-- `HashMap::get`: first value bound to `k` in the association list. -/
def alookup {β : Type} (k : String) : List (String × β) → Option β
  | [] => none
  | (k', v) :: rest => if k' = k then some v else alookup k rest

/-- `HashMap::insert`: overwrite the binding of `k` if present,
otherwise add a new binding.  (A `HashMap` never holds a duplicate
key, so only the first binding can need overwriting.) -/
def insertAssoc {β : Type} (k : String) (v : β) :
    List (String × β) → List (String × β)
  | [] => [(k, v)]
  | (k0, v0) :: rest =>
    if k0 = k then (k0, v) :: rest else (k0, v0) :: insertAssoc k v rest

/-- Monadic `map` over `Except`, written out so that proofs can unfold
it by plain case analysis. -/
def exMapM {α β : Type} (f : α → Except FuzzyError β) :
    List α → Except FuzzyError (List β)
  | [] => .ok []
  | a :: rest =>
    match f a with
    | .error e => .error e
    | .ok b =>
      match exMapM f rest with
      | .error e => .error e
      | .ok bs => .ok (b :: bs)

/-- Extract the payload of an `Except`, with a default. -/
def okD {α : Type} (x : Except FuzzyError α) (d : α) : α :=
  match x with
  | .ok a => a
  | .error _ => d

/-- `f64::EPSILON` (the machine epsilon of binary64), used by the
trapezoidal shape. -/
def f64Epsilon : ℝ := 1 / 2 ^ 52

/-- `slope` of `src/membership/mod.rs`:
`(delta * (value - left) / (right - left) + ((-1.0*delta + 1.0)/2.0)).clamp(0.0, 1.0)`. -/
def slope (value left right delta : ℝ) : ℝ :=
  min (max (delta * (value - left) / (right - left) + (-1 * delta + 1) / 2) 0) 1

/-- `validate_order` of `src/membership/mod.rs`: errors with `BadArity`
at the first adjacent pair that is not strictly increasing. -/
def validate_order : List ℝ → Except FuzzyError Unit
  | a :: b :: rest =>
    if b ≤ a then .error .BadArity else validate_order (b :: rest)
  | _ => .ok ()

/-- The three membership shapes of `src/membership/`.  The `gaussian`
variant stores the precomputed `neg_two_sigma_sq` field exactly as the
Rust struct does. -/
inductive Shape
  | triangular (left center right : ℝ)
  | trapezoidal (left_leg left_base right_base right_leg : ℝ)
  | gaussian (sd mean neg_two_sigma_sq : ℝ)

/-- `MembershipFn::eval` for the three shapes, following
`triangular.rs`, `trapezoidal.rs` and `gaussian.rs` branch by branch. -/
def Shape.eval : Shape → ℝ → ℝ
  | .triangular l c r, x =>
    if x ≤ l then 0
    else if x ≥ r then 0
    else if |x - c| < 1 / 1000000000 then 1
    else if x < c then slope x l c 1
    else slope x c r (-1)
  | .trapezoidal ll lb rb rl, x =>
    if x ≤ ll then 0
    else if x ≥ rl then 0
    else if |x - lb| < f64Epsilon ∨ |x - rb| < f64Epsilon then 1
    else if x < lb then slope x ll lb 1
    else if lb < x ∧ x < rb then 1
    else slope x rb rl (-1)
  | .gaussian _ mean negq, x => Real.exp ((x - mean) ^ 2 / negq)

/-- `Triangular::new` (`src/membership/triangular.rs`). -/
def Triangular.new (l c r : ℝ) : Except FuzzyError Shape :=
  match validate_order [l, c, r] with
  | .error e => .error e
  | .ok _ => .ok (.triangular l c r)

/-- `Trapezoidal::new` (`src/membership/trapezoidal.rs`). -/
def Trapezoidal.new (ll lb rb rl : ℝ) : Except FuzzyError Shape :=
  match validate_order [ll, lb, rb, rl] with
  | .error e => .error e
  | .ok _ => .ok (.trapezoidal ll lb rb rl)

/-- `Gaussian::new` (`src/membership/gaussian.rs`): `validate_positive`
rejects `sd <= 0.0` with `OutOfBounds`, then `neg_two_sigma_sq` is
precomputed as `-2.0 * sd.powi(2)`. -/
def Gaussian.new (sd mean : ℝ) : Except FuzzyError Shape :=
  if sd ≤ 0 then .error .OutOfBounds
  else .ok (.gaussian sd mean (-2 * sd ^ 2))

/-- A shape is obtainable from one of the three validated constructors.
The Rust struct fields are private, so every shape value reachable
through the library API satisfies this. -/
def ShapeValidated (s : Shape) : Prop :=
  (∃ l c r, Triangular.new l c r = .ok s) ∨
  (∃ ll lb rb rl, Trapezoidal.new ll lb rb rl = .ok s) ∨
  (∃ sd mean, Gaussian.new sd mean = .ok s)

/-- The structural invariant each validated constructor establishes. -/
def ShapeInvariant : Shape → Prop
  | .triangular l c r => l < c ∧ c < r
  | .trapezoidal ll lb rb rl => ll < lb ∧ lb < rb ∧ rb < rl
  | .gaussian sd _ negq => 0 < sd ∧ negq = -2 * sd ^ 2

/-- `Term` of `src/term.rs`: a label together with a boxed membership
function (here: a `Shape`). -/
structure Term where
  name : String
  mf : Shape

/-- `Term::eval`: delegation to the wrapped membership function. -/
def Term.eval (t : Term) (x : ℝ) : ℝ :=
  t.mf.eval x

/-- `Variable` of `src/variable.rs`: inclusive domain bounds and a map
from term name to `Term`. -/
structure Variable where
  min : ℝ
  max : ℝ
  terms : List (String × Term)

/-- `Variable::domain`. -/
def Variable.domain (v : Variable) : ℝ × ℝ :=
  (v.min, v.max)

/-- `Variable::eval` (`src/variable.rs`): unknown term gives
`TypeMismatch`; `x` outside the inclusive `[min, max]` gives
`OutOfBounds`; otherwise the term's membership value. -/
def Variable.eval (v : Variable) (name : String) (x : ℝ) :
    Except FuzzyError ℝ :=
  match alookup name v.terms with
  | none => .error .TypeMismatch
  | some t =>
    if v.max < x ∨ v.min > x then .error .OutOfBounds
    else .ok (t.eval x)

/-- Antecedent AST of `src/rule.rs` (declared as `crate::antecedent`
in the packaged crate). -/
inductive Antecedent
  | Atom (var term : String)
  | And (a b : Antecedent)
  | Or (a b : Antecedent)
  | Not (a : Antecedent)

/-- `eval_antecedent` (`src/rule.rs`): recursive descent with the
Min–Max operator family (AND = min, OR = max, NOT = 1 − x). -/
def eval_antecedent (ant : Antecedent) (input : List (String × ℝ))
    (vars : List (String × Variable)) : Except FuzzyError ℝ :=
  match ant with
  | .Atom var term =>
    match alookup var vars with
    | none => .error (.NotFound .Var var)
    | some v =>
      match alookup var input with
      | none => .error (.NotFound .Input term)
      | some x => v.eval term x
  | .And a b =>
    match eval_antecedent a input vars with
    | .error e => .error e
    | .ok ya =>
      match eval_antecedent b input vars with
      | .error e => .error e
      | .ok yb => .ok (min ya yb)
  | .Or a b =>
    match eval_antecedent a input vars with
    | .error e => .error e
    | .ok ya =>
      match eval_antecedent b input vars with
      | .error e => .error e
      | .ok yb => .ok (max ya yb)
  | .Not a =>
    match eval_antecedent a input vars with
    | .error e => .error e
    | .ok ya => .ok (1 - ya)

/-- `UniformSampler` of `src/sampler.rs`. -/
structure UniformSampler where
  n : ℕ

/-- `UniformSampler::new`: rejects `n < 2` with `OutOfBounds`. -/
def UniformSampler.new (n : ℕ) : Except FuzzyError UniformSampler :=
  if n < 2 then .error .OutOfBounds else .ok ⟨n⟩

/-- `UniformSampler::sample` (`src/sampler.rs`): errors with `BadArity`
when `min >= max`; the source also rejects non-finite bounds, a check
that is vacuously true in the real-number model.  Otherwise it pushes
`min + i * step` with `step = (max - min)/(n - 1)` for `i ∈ [0, n)` and
then overwrites the last entry with exactly `max`. -/
def UniformSampler.sample (s : UniformSampler) (mn mx : ℝ) :
    Except FuzzyError (List ℝ) :=
  if mn ≥ mx then .error .BadArity
  else
    .ok ((((List.range s.n).map
      (fun i : ℕ => mn + (i : ℝ) * ((mx - mn) / ((s.n : ℝ) - 1))))).set
        (s.n - 1) mx)

/-- `Consequent` of `src/mamdani.rs`. -/
structure Consequent where
  var : String
  term : String

/-- `Rule` of `src/mamdani.rs`.  Both fields are `pub` in the source
and there is no validating constructor, so any antecedent/consequent
combination is constructible. -/
structure Rule where
  antecedent : Antecedent
  consequent : List Consequent

/-- `Rule::activation`. -/
def Rule.activation (r : Rule) (input : List (String × ℝ))
    (vars : List (String × Variable)) : Except FuzzyError ℝ :=
  eval_antecedent r.antecedent input vars

/-- The sample grid generated inside `Rule::implicate`
(`src/mamdani.rs`): `x = dom_min + k * step` with
`step = (dom_max - dom_min) / n` for `k ∈ [0, n)`.  Note the divisor is
`n`, not `n - 1`, and the last sample is never forced to `dom_max`. -/
def implicateGrid (dmin dmax : ℝ) (n : ℕ) : List ℝ :=
  (List.range n).map (fun k : ℕ => dmin + (k : ℝ) * ((dmax - dmin) / (n : ℝ)))

/-- Modelled from the spec (§4.5): the grid the specification mandates
for the implication step, `dom_min + i·(dom_max−dom_min)/(n−1)` for
`i ∈ [0,n)` with the last sample forced to exactly `dom_max`.  Kept
separate from `implicateGrid` so the two can be compared. -/
def specSampleGrid (dmin dmax : ℝ) (n : ℕ) : List ℝ :=
  ((List.range n).map
    (fun i : ℕ => dmin + (i : ℝ) * ((dmax - dmin) / ((n : ℝ) - 1)))).set
      (n - 1) dmax

/-- The per-sample body of `Rule::implicate`: the consequent's variable
is looked up again at every sample (as in the source), the consequent
term is evaluated at the sample, and the result is clipped by `alpha`
(`.min(alpha)`). -/
def implicateSample (vers : List (String × Variable)) (alpha : ℝ)
    (c : Consequent) (x : ℝ) : Except FuzzyError ℝ :=
  match alookup c.var vers with
  | none => .error (.NotFound .Var c.term)
  | some v2 =>
    match v2.eval c.term x with
    | .error e => .error e
    | .ok y => .ok (min y alpha)

/-- The body of the per-consequent loop of `Rule::implicate`: look up
the consequent's variable for its domain, then fill the result vector
sample by sample. -/
def implicateStep (vers : List (String × Variable)) (alpha : ℝ) (n : ℕ)
    (c : Consequent) : Except FuzzyError (List ℝ) :=
  match alookup c.var vers with
  | none => .error (.NotFound .Var c.term)
  | some v =>
    exMapM (implicateSample vers alpha c) (implicateGrid v.min v.max n)

/-- The loop of `Rule::implicate` over the consequent list,
accumulating the per-variable result map via `HashMap::insert`. -/
def implicateAux (vers : List (String × Variable)) (alpha : ℝ) (n : ℕ) :
    List Consequent → List (String × List ℝ) →
      Except FuzzyError (List (String × List ℝ))
  | [], acc => .ok acc
  | c :: rest, acc =>
    match implicateStep vers alpha n c with
    | .error e => .error e
    | .ok vec => implicateAux vers alpha n rest (insertAssoc c.var vec acc)

/-- `Rule::implicate` (`src/mamdani.rs`). -/
def Rule.implicate (r : Rule) (alpha : ℝ) (vers : List (String × Variable))
    (s : UniformSampler) : Except FuzzyError (List (String × List ℝ)) :=
  implicateAux vers alpha s.n r.consequent []

/-- `elements_max` (`src/aggregate.rs`): `data.iter_mut().zip(src)`
overwrites each of the first `min(len(data), len(src))` entries of
`data` with the pointwise maximum; entries of `data` beyond the zip are
left untouched. -/
def elements_max : List ℝ → List ℝ → List ℝ
  | [], _ => []
  | d, [] => d
  | d :: ds, s :: ss => max d s :: elements_max ds ss

/-- Merging one implicated entry into the accumulator map:
`entry(k).and_modify(|cur| elements_max(cur, &v)).or_insert(v)`.
(A `HashMap` never holds a duplicate key, so only the first binding
can need modifying.) -/
def mergeEntry : List (String × List ℝ) → String → List ℝ →
    List (String × List ℝ)
  | [], k, v => [(k, v)]
  | (k0, w) :: rest, k, v =>
    if k0 = k then (k0, elements_max w v) :: rest
    else (k0, w) :: mergeEntry rest k v

/-- Merging a whole implicated map into the accumulator
(the `for (k, v) in implicated` loop of `aggregation`). -/
def mergeMap (acc o : List (String × List ℝ)) : List (String × List ℝ) :=
  o.foldl (fun a p => mergeEntry a p.1 p.2) acc

/-- The per-rule body of `aggregation`: activation followed by
implication. -/
def ruleOut (input : List (String × ℝ)) (vars : List (String × Variable))
    (s : UniformSampler) (r : Rule) :
    Except FuzzyError (List (String × List ℝ)) :=
  match r.activation input vars with
  | .error e => .error e
  | .ok alpha => r.implicate alpha vars s

/-- The rule loop of `aggregation` (`src/aggregate.rs`). -/
def aggregationAux (input : List (String × ℝ))
    (vars : List (String × Variable)) (s : UniformSampler) :
    List Rule → List (String × List ℝ) →
      Except FuzzyError (List (String × List ℝ))
  | [], acc => .ok acc
  | r :: rest, acc =>
    match ruleOut input vars s r with
    | .error e => .error e
    | .ok implicated => aggregationAux input vars s rest (mergeMap acc implicated)

/-- `aggregation` (`src/aggregate.rs`). -/
def aggregation (rules : List Rule) (input : List (String × ℝ))
    (vars : List (String × Variable)) (s : UniformSampler) :
    Except FuzzyError (List (String × List ℝ)) :=
  aggregationAux input vars s rules []

/-- The accumulation loop of `defuzzification`: for the `l`-th sample
`k`, add `(var_min + step * l) * k` to the numerator sum and `k` to the
denominator sum. -/
def centroidSums (vmin step : ℝ) : List ℝ → ℕ → ℝ × ℝ → ℝ × ℝ
  | [], _, acc => acc
  | k :: rest, l, acc =>
    centroidSums vmin step rest (l + 1)
      (acc.1 + (vmin + step * (l : ℝ)) * k, acc.2 + k)

/-- The per-variable body of `defuzzification`
(`num = j.len()`, `step = (var_max - var_min)/(num - 1)`, then the
centroid ratio `Σ xᵢ·μᵢ / Σ μᵢ`). -/
def centroid (v : Variable) (j : List ℝ) : ℝ :=
  (centroidSums v.min ((v.max - v.min) / ((j.length : ℝ) - 1)) j 0 (0, 0)).1 /
    (centroidSums v.min ((v.max - v.min) / ((j.length : ℝ) - 1)) j 0 (0, 0)).2

/-- The entry loop of `defuzzification` (`src/defuzz.rs`): a missing
output variable gives `EmptyInput`; otherwise the centroid value is
inserted into the result map. -/
def defuzzAux (vars : List (String × Variable)) :
    List (String × List ℝ) → List (String × ℝ) →
      Except FuzzyError (List (String × ℝ))
  | [], acc => .ok acc
  | (i, j) :: rest, acc =>
    match alookup i vars with
    | none => .error .EmptyInput
    | some v => defuzzAux vars rest (insertAssoc i (centroid v j) acc)

/-- `defuzzification` (`src/defuzz.rs`). -/
def defuzzification (agg : List (String × List ℝ))
    (vars : List (String × Variable)) :
    Except FuzzyError (List (String × ℝ)) :=
  defuzzAux vars agg []

/-!
IEEE-754 model.  `FFloat` is an idealised binary64: NaN, the two
infinities, and exact real finite values (rounding and the sign of zero
are not modelled; the claims proved over `FFloat` do not depend on
either).
-/

/-- Idealised `f64`. -/
inductive FFloat
  | nan
  | inf
  | ninf
  | fin (x : ℝ)

/-- IEEE `>=`: any comparison involving NaN is false. -/
def fge : FFloat → FFloat → Bool
  | .nan, _ => false
  | _, .nan => false
  | .inf, _ => true
  | .ninf, .inf => false
  | .ninf, .ninf => true
  | .ninf, .fin _ => false
  | .fin _, .inf => false
  | .fin _, .ninf => true
  | .fin a, .fin b => decide (b ≤ a)

/-- IEEE addition (exact on finite values). -/
def fadd : FFloat → FFloat → FFloat
  | .nan, _ => .nan
  | _, .nan => .nan
  | .inf, .ninf => .nan
  | .ninf, .inf => .nan
  | .inf, _ => .inf
  | _, .inf => .inf
  | .ninf, _ => .ninf
  | _, .ninf => .ninf
  | .fin a, .fin b => .fin (a + b)

/-- IEEE subtraction (exact on finite values). -/
def fsub : FFloat → FFloat → FFloat
  | .nan, _ => .nan
  | _, .nan => .nan
  | .inf, .inf => .nan
  | .ninf, .ninf => .nan
  | .inf, _ => .inf
  | _, .inf => .ninf
  | .ninf, _ => .ninf
  | _, .ninf => .inf
  | .fin a, .fin b => .fin (a - b)

/-- IEEE multiplication (exact on finite values); `0 · ∞ = NaN`. -/
def fmul : FFloat → FFloat → FFloat
  | .nan, _ => .nan
  | _, .nan => .nan
  | .inf, .inf => .inf
  | .inf, .ninf => .ninf
  | .ninf, .inf => .ninf
  | .ninf, .ninf => .inf
  | .inf, .fin a => if a = 0 then .nan else if 0 < a then .inf else .ninf
  | .fin a, .inf => if a = 0 then .nan else if 0 < a then .inf else .ninf
  | .ninf, .fin a => if a = 0 then .nan else if 0 < a then .ninf else .inf
  | .fin a, .ninf => if a = 0 then .nan else if 0 < a then .ninf else .inf
  | .fin a, .fin b => .fin (a * b)

/-- IEEE division (exact on finite values); `0/0 = NaN`, nonzero over
(positive) zero gives a signed infinity. -/
def fdiv : FFloat → FFloat → FFloat
  | .nan, _ => .nan
  | _, .nan => .nan
  | .inf, .inf => .nan
  | .inf, .ninf => .nan
  | .ninf, .inf => .nan
  | .ninf, .ninf => .nan
  | .inf, .fin a => if 0 ≤ a then .inf else .ninf
  | .ninf, .fin a => if 0 ≤ a then .ninf else .inf
  | .fin _, .inf => .fin 0
  | .fin _, .ninf => .fin 0
  | .fin a, .fin b =>
    if b = 0 then
      if a = 0 then .nan else if 0 < a then .inf else .ninf
    else .fin (a / b)

/-- The part of a freshly constructed `Variable` that `Variable::new`
determines: the domain bounds as IEEE floats.  The `terms` map of a
fresh variable is empty and is irrelevant to the claims proved over
this model, so it is omitted. -/
structure FVariable where
  min : FFloat
  max : FFloat

/-- `Variable::new` (`src/variable.rs`) over IEEE floats: the only
check is `min >= max` (IEEE comparison), answered with `OutOfBounds`;
there is no finiteness or NaN check. -/
def FVariable.new (mn mx : FFloat) : Except FuzzyError FVariable :=
  if fge mn mx then .error .OutOfBounds else .ok ⟨mn, mx⟩

/-- The accumulation loop of `defuzzification` over IEEE floats. -/
def centroidSumsF (vmin step : FFloat) :
    List FFloat → ℕ → FFloat × FFloat → FFloat × FFloat
  | [], _, acc => acc
  | k :: rest, l, acc =>
    centroidSumsF vmin step rest (l + 1)
      (fadd acc.1 (fmul (fadd vmin (fmul step (.fin (l : ℝ)))) k),
        fadd acc.2 k)

/-- The per-variable body of `defuzzification` over IEEE floats. -/
def centroidF (v : FVariable) (j : List FFloat) : FFloat :=
  fdiv
    (centroidSumsF v.min
      (fdiv (fsub v.max v.min) (.fin ((j.length : ℝ) - 1))) j 0
      (.fin 0, .fin 0)).1
    (centroidSumsF v.min
      (fdiv (fsub v.max v.min) (.fin ((j.length : ℝ) - 1))) j 0
      (.fin 0, .fin 0)).2

/-- The entry loop of `defuzzification` (`src/defuzz.rs`) over IEEE
floats. -/
def defuzzAuxF (vars : List (String × FVariable)) :
    List (String × List FFloat) → List (String × FFloat) →
      Except FuzzyError (List (String × FFloat))
  | [], acc => .ok acc
  | (i, j) :: rest, acc =>
    match alookup i vars with
    | none => .error .EmptyInput
    | some v => defuzzAuxF vars rest (insertAssoc i (centroidF v j) acc)

/-- `defuzzification` (`src/defuzz.rs`) over IEEE floats. -/
def defuzzificationF (agg : List (String × List FFloat))
    (vars : List (String × FVariable)) :
    Except FuzzyError (List (String × FFloat)) :=
  defuzzAuxF vars agg []

/-!
Predicates used by the theorem statements.
-/

/-- Every term registered on the variable wraps a shape satisfying its
constructor invariant.  The shape structs' fields are private in the
source, so every `Variable` reachable through the library API
satisfies this. -/
def VarValidated (v : Variable) : Prop :=
  ∀ p ∈ v.terms, ShapeInvariant p.2.mf

/-- Every variable in the map is validated in the sense of
`VarValidated`. -/
def VarsValidated (vars : List (String × Variable)) : Prop :=
  ∀ p ∈ vars, VarValidated p.2

/-- Well-formedness of an antecedent with respect to a variable map and
a crisp input map: every atom's variable is registered, its term is
registered on that variable, and the crisp input covers the variable
with an in-domain value. -/
def AntCovered (input : List (String × ℝ)) (vars : List (String × Variable)) :
    Antecedent → Prop
  | .Atom var term =>
    ∃ v, alookup var vars = some v ∧ (alookup term v.terms).isSome ∧
      ∃ x, alookup var input = some x ∧ v.min ≤ x ∧ x ≤ v.max
  | .And a b => AntCovered input vars a ∧ AntCovered input vars b
  | .Or a b => AntCovered input vars a ∧ AntCovered input vars b
  | .Not a => AntCovered input vars a

/-- Every consequent of the rule refers to a registered variable with a
strictly ordered domain and to a term registered on that variable. -/
def ConsequentsResolvable (vars : List (String × Variable)) (r : Rule) : Prop :=
  ∀ c ∈ r.consequent, ∃ v, alookup c.var vars = some v ∧
    v.min < v.max ∧ (alookup c.term v.terms).isSome

/-- Combination of two optional aggregate vectors, as performed per key
by the accumulator update of `aggregation`. -/
def optMerge (a b : Option (List ℝ)) : Option (List ℝ) :=
  match b with
  | none => a
  | some v =>
    match a with
    | none => some v
    | some w => some (elements_max w v)

/-!
Helper lemmas about the association-list model.
-/

theorem alookup_mem {β : Type} {k : String} {m : List (String × β)} {b : β}
    (h : alookup k m = some b) : (k, b) ∈ m := by
  induction m with
  | nil => simp [alookup] at h
  | cons p rest ih =>
    obtain ⟨k', v⟩ := p
    by_cases hk : k' = k
    · subst hk
      simp [alookup] at h
      simp [h]
    · simp [alookup, hk] at h
      exact List.mem_cons_of_mem _ (ih h)

theorem alookup_isSome_of_mem {β : Type} {p : String × β} {m : List (String × β)}
    (h : p ∈ m) : (alookup p.1 m).isSome := by
  induction m with
  | nil => simp at h
  | cons q rest ih =>
    rcases List.mem_cons.mp h with h | h
    · subst h
      simp [alookup]
    · by_cases hk : q.1 = p.1
      · simp [alookup, hk]
      · simp only [alookup, hk, if_false]
        exact ih h

theorem alookup_eq_none_iff {β : Type} {k : String} {m : List (String × β)} :
    alookup k m = none ↔ k ∉ m.map Prod.fst := by
  induction m with
  | nil => simp [alookup]
  | cons p rest ih =>
    by_cases hk : p.1 = k
    · simp [alookup, hk]
    · simp [alookup, hk, ih, Ne.symm hk]

theorem alookup_insertAssoc {β : Type} (key k : String) (v : β)
    (m : List (String × β)) :
    alookup key (insertAssoc k v m) =
      if k = key then some v else alookup key m := by
  induction m with
  | nil =>
    by_cases h : k = key <;> simp [insertAssoc, alookup, h]
  | cons p rest ih =>
    obtain ⟨k0, v0⟩ := p
    simp only [insertAssoc]
    by_cases h0 : k0 = k
    · subst h0
      by_cases h1 : k0 = key
      · subst h1
        simp [alookup]
      · simp [alookup, h1]
    · simp only [if_neg h0]
      by_cases h1 : k0 = key
      · subst h1
        have h2 : k ≠ k0 := fun h => h0 h.symm
        simp [alookup, h2]
      · simp [alookup, h1, ih]

/-!
Lemmas about `elements_max`.
-/

theorem elements_max_get? (d s : List ℝ) (i : ℕ) :
    (elements_max d s)[i]? =
      match d[i]?, s[i]? with
      | some a, some b => some (max a b)
      | some a, none => some a
      | none, _ => none := by
  induction d generalizing s i with
  | nil =>
    cases s <;> simp [elements_max]
  | cons a d ih =>
    cases s with
    | nil =>
      cases h : (a :: d)[i]? <;> simp [elements_max, h]
    | cons b s =>
      cases i with
      | zero => simp [elements_max]
      | succ i => simpa [elements_max] using ih s i

theorem elements_max_length (d s : List ℝ) :
    (elements_max d s).length = d.length := by
  induction d generalizing s with
  | nil => cases s <;> simp [elements_max]
  | cons a d ih =>
    cases s with
    | nil => simp [elements_max]
    | cons b s => simp [elements_max, ih]

theorem elements_max_right_comm (d s1 s2 : List ℝ) :
    elements_max (elements_max d s1) s2 = elements_max (elements_max d s2) s1 := by
  apply List.ext_getElem?
  intro i
  simp only [elements_max_get?]
  cases d[i]? <;> cases s1[i]? <;> cases s2[i]? <;>
    simp [sup_right_comm]

theorem elements_max_comm_of_length_eq {d s : List ℝ}
    (h : d.length = s.length) : elements_max d s = elements_max s d := by
  apply List.ext_getElem?
  intro i
  simp only [elements_max_get?]
  cases hd : d[i]? with
  | none =>
    have hs : s[i]? = none := by
      rw [List.getElem?_eq_none_iff] at hd ⊢
      omega
    simp [hs]
  | some a =>
    cases hs : s[i]? with
    | none =>
      have hd' : d[i]? = none := by
        rw [List.getElem?_eq_none_iff] at hs ⊢
        omega
      rw [hd'] at hd
      cases hd
    | some b => simp [max_comm]

/-- C10: `elements_max(data, src)` is total; it replaces each of the
first `min(len(data), len(src))` entries of `data` by the pointwise
maximum with the corresponding entry of `src`, and leaves every entry
of `data` beyond that prefix unchanged (in particular the length of
`data` is preserved). -/
theorem elements_max_spec (data src : List ℝ) :
    (elements_max data src).length = data.length ∧
    ∀ i : ℕ, (elements_max data src)[i]? =
      match data[i]?, src[i]? with
      | some a, some b => some (max a b)
      | some a, none => some a
      | none, _ => none :=
  ⟨elements_max_length data src, elements_max_get? data src⟩

/-- C1: at the failing input `n = 2`, consequent domain `[0, 1]`, the
grid actually sampled by `Rule::implicate` is `[0, 1/2]` — it uses the
divisor `n` and does not force the last sample to `dom_max` — whereas
the grid required by the specification is `[0, 1]`.  The two grids
differ, so `Rule::implicate` does not sample
`dom_min + i·(dom_max−dom_min)/(n−1)` with the last sample forced to
`dom_max`. -/
theorem implicate_grid_diverges_from_spec :
    implicateGrid 0 1 2 = [0, 1 / 2] ∧ specSampleGrid 0 1 2 = [0, 1] ∧
      implicateGrid 0 1 2 ≠ specSampleGrid 0 1 2 := by
  refine ⟨?_, ?_, ?_⟩
  · norm_num [implicateGrid, List.range_succ]
  · norm_num [specSampleGrid, List.range_succ]
  · norm_num [implicateGrid, specSampleGrid, List.range_succ]

/-- C5 counterexample: `Rule`'s fields are public and it has no
validating constructor, so a `Rule` value whose consequent list is
empty is obtainable — refuting the claim that such rules cannot be
constructed. -/
theorem rule_empty_consequent_exists : ∃ r : Rule, r.consequent = [] :=
  ⟨⟨.Atom "a" "b", []⟩, rfl⟩

/-- C5 amended: a rule with an empty consequent list is accepted (not
rejected) by construction, and `Rule::implicate` on such a rule
trivially succeeds with an empty output map. -/
theorem rule_empty_consequent_implicate_ok :
    ∀ (ant : Antecedent) (alpha : ℝ) (vars : List (String × Variable))
      (s : UniformSampler),
      (Rule.mk ant []).implicate alpha vars s = .ok [] :=
  fun _ _ _ _ => rfl

/-- C8 counterexample: `Variable::new` performs no finiteness check —
its only test is the IEEE comparison `min >= max` — so both
`new(NaN, NaN)` and `new(-inf, inf)` return `Ok`, refuting the claim
that non-finite bounds are rejected. -/
theorem fvariable_new_accepts_nonfinite :
    FVariable.new .nan .nan = .ok ⟨.nan, .nan⟩ ∧
      FVariable.new .ninf .inf = .ok ⟨.ninf, .inf⟩ := by
  exact ⟨rfl, rfl⟩

/-- C8 amended: `Variable::new(min, max)` returns `Err(OutOfBounds)`
exactly when `min >= max` holds under IEEE comparison, and succeeds
otherwise; on finite bounds this means success exactly for `min < max`,
but non-finite bounds (NaN, infinities) are not rejected. -/
theorem fvariable_new_spec :
    (∀ mn mx : FFloat,
      (∃ v, FVariable.new mn mx = .ok v) ↔ fge mn mx = false) ∧
    (∀ mn mx : FFloat, fge mn mx = true →
      FVariable.new mn mx = .error .OutOfBounds) ∧
    (∀ a b : ℝ,
      (∃ v, FVariable.new (.fin a) (.fin b) = .ok v) ↔ a < b) := by
  refine ⟨fun mn mx => ?_, fun mn mx h => ?_, fun a b => ?_⟩
  · unfold FVariable.new
    cases h : fge mn mx <;> simp
  · simp [FVariable.new, h]
  · unfold FVariable.new
    have hd : fge (.fin a) (.fin b) = decide (b ≤ a) := rfl
    rw [hd]
    by_cases hab : b ≤ a
    · rw [if_pos (by simpa using hab)]
      constructor
      · intro ⟨v, hv⟩
        cases hv
      · intro h
        exact absurd h (not_lt_of_ge hab)
    · rw [if_neg (by simpa using hab)]
      simpa using lt_of_not_ge hab

/-!
Membership-shape lemmas (C3).
-/

theorem slope_nonneg (value left right delta : ℝ) :
    0 ≤ slope value left right delta :=
  le_min (le_max_right _ _) zero_le_one

theorem slope_le_one (value left right delta : ℝ) :
    slope value left right delta ≤ 1 :=
  min_le_right _ _

theorem validate_order_ok3 {a b c : ℝ} {u : Unit}
    (h : validate_order [a, b, c] = .ok u) : a < b ∧ b < c := by
  by_cases h1 : b ≤ a
  · simp [validate_order, h1] at h
  · by_cases h2 : c ≤ b
    · simp [validate_order, h1, h2] at h
    · exact ⟨lt_of_not_ge h1, lt_of_not_ge h2⟩

theorem validate_order_ok4 {a b c d : ℝ} {u : Unit}
    (h : validate_order [a, b, c, d] = .ok u) : a < b ∧ b < c ∧ c < d := by
  by_cases h1 : b ≤ a
  · simp [validate_order, h1] at h
  · by_cases h2 : c ≤ b
    · simp [validate_order, h1, h2] at h
    · by_cases h3 : d ≤ c
      · simp [validate_order, h1, h2, h3] at h
      · exact ⟨lt_of_not_ge h1, lt_of_not_ge h2, lt_of_not_ge h3⟩

theorem shape_invariant_of_validated {s : Shape} (h : ShapeValidated s) :
    ShapeInvariant s := by
  rcases h with ⟨l, c, r, h⟩ | ⟨ll, lb, rb, rl, h⟩ | ⟨sd, mean, h⟩
  · unfold Triangular.new at h
    cases hv : validate_order [l, c, r] with
    | error e => rw [hv] at h; cases h
    | ok u =>
      rw [hv] at h
      cases h
      exact validate_order_ok3 hv
  · unfold Trapezoidal.new at h
    cases hv : validate_order [ll, lb, rb, rl] with
    | error e => rw [hv] at h; cases h
    | ok u =>
      rw [hv] at h
      cases h
      exact validate_order_ok4 hv
  · unfold Gaussian.new at h
    by_cases hsd : sd ≤ 0
    · simp [hsd] at h
    · rw [if_neg hsd] at h
      cases h
      exact ⟨lt_of_not_ge hsd, rfl⟩

theorem shape_eval_bounds {s : Shape} (h : ShapeInvariant s) (x : ℝ) :
    0 ≤ s.eval x ∧ s.eval x ≤ 1 := by
  cases s with
  | triangular l c r =>
    simp only [Shape.eval]
    split_ifs <;>
      first
        | exact ⟨le_refl 0, zero_le_one⟩
        | exact ⟨zero_le_one, le_refl 1⟩
        | exact ⟨slope_nonneg _ _ _ _, slope_le_one _ _ _ _⟩
  | trapezoidal ll lb rb rl =>
    simp only [Shape.eval]
    split_ifs <;>
      first
        | exact ⟨le_refl 0, zero_le_one⟩
        | exact ⟨zero_le_one, le_refl 1⟩
        | exact ⟨slope_nonneg _ _ _ _, slope_le_one _ _ _ _⟩
  | gaussian sd mean negq =>
    obtain ⟨hsd, hnegq⟩ := h
    simp only [Shape.eval]
    constructor
    · exact (Real.exp_pos _).le
    · rw [Real.exp_le_one_iff]
      apply div_nonpos_of_nonneg_of_nonpos (sq_nonneg _)
      rw [hnegq]
      have : (0:ℝ) < sd ^ 2 := pow_pos hsd 2
      nlinarith

/-- C3: every shape returned `Ok` by its validated constructor
(`Triangular::new`, `Trapezoidal::new`, `Gaussian::new`) has membership
values in `[0, 1]` at every real input. -/
theorem shape_eval_bounded_of_validated (s : Shape) (h : ShapeValidated s)
    (x : ℝ) : 0 ≤ s.eval x ∧ s.eval x ≤ 1 :=
  shape_eval_bounds (shape_invariant_of_validated h) x

/-- Witness for C3 at the concrete validated shape
`Triangular::new(0, 5, 10)` and input `x = 7`. -/
theorem shape_eval_bounded_of_validated_witness :
    0 ≤ (Shape.triangular 0 5 10).eval 7 ∧
      (Shape.triangular 0 5 10).eval 7 ≤ 1 :=
  shape_eval_bounded_of_validated _
    (Or.inl ⟨0, 5, 10, by norm_num [Triangular.new, validate_order]⟩) 7

/-!
Sampler lemmas (C4).
-/

/-- C4: for a `UniformSampler` with `n ≥ 2` and bounds `min < max`,
`sample` succeeds and the grid has length `n`, is strictly increasing,
starts exactly at `min` and ends exactly at `max`. -/
theorem uniform_sampler_sample_spec (s : UniformSampler) (mn mx : ℝ)
    (hn : 2 ≤ s.n) (hlt : mn < mx) :
    ∃ g : List ℝ, s.sample mn mx = .ok g ∧ g.length = s.n ∧
      List.Chain' (· < ·) g ∧ g.head? = some mn ∧ g.getLast? = some mx := by
  have hnotge : ¬ mn ≥ mx := not_le.mpr hlt
  set n := s.n with hn_def
  set step : ℝ := (mx - mn) / ((n : ℝ) - 1) with hstep_def
  set base : List ℝ := (List.range n).map (fun i : ℕ => mn + (i : ℝ) * step)
    with hbase_def
  refine ⟨base.set (n - 1) mx, ?_, ?_, ?_, ?_, ?_⟩
  · simp only [UniformSampler.sample, hnotge, if_false]
  · rw [List.length_set, hbase_def, List.length_map, List.length_range]
  all_goals {
    have hn1R : (1 : ℝ) ≤ (n : ℝ) - 1 := by
      have : (2 : ℝ) ≤ (n : ℝ) := by exact_mod_cast hn
      linarith
    have hstep_pos : 0 < step := by
      rw [hstep_def]
      exact div_pos (sub_pos.mpr hlt) (by linarith)
    have hlen_base : base.length = n := by
      rw [hbase_def, List.length_map, List.length_range]
    have hlen : (base.set (n - 1) mx).length = n := by
      rw [List.length_set, hlen_base]
    have hcast : (((n - 1 : ℕ)) : ℝ) = (n : ℝ) - 1 := by
      have h1 : 1 ≤ n := by omega
      rw [Nat.cast_sub h1, Nat.cast_one]
    have hlast_val : mn + ((n - 1 : ℕ) : ℝ) * step = mx := by
      rw [hcast, hstep_def, mul_div_cancel₀ _ (by linarith : (n : ℝ) - 1 ≠ 0)]
      ring
    have hget? : ∀ i : ℕ, i < n →
        (base.set (n - 1) mx)[i]? =
          some (if n - 1 = i then mx else mn + (i : ℝ) * step) := by
      intro i hi
      rw [List.getElem?_set]
      by_cases hcase : n - 1 = i
      · rw [if_pos hcase, if_pos (by rw [hlen_base]; omega), if_pos hcase]
      · rw [if_neg hcase, hbase_def, List.getElem?_map,
          List.getElem?_range hi]
        simp [hcase]
    have hget : ∀ (i : ℕ) (h : i < (base.set (n - 1) mx).length),
        (base.set (n - 1) mx).get ⟨i, h⟩ =
          if n - 1 = i then mx else mn + (i : ℝ) * step := by
      intro i h
      have h2 := hget? i (by rw [← hlen]; exact h)
      rw [List.getElem?_eq_getElem h] at h2
      rw [List.get_eq_getElem]
      exact Option.some_injective _ h2
    have hmono : ∀ i j : ℕ, i < j →
        mn + (i : ℝ) * step < mn + (j : ℝ) * step := by
      intro i j hij
      have : (i : ℝ) < (j : ℝ) := by exact_mod_cast hij
      nlinarith
    first
    | -- strict monotonicity
      (rw [List.chain'_iff_get]
       intro i hi
       rw [hlen] at hi
       rw [hget i, hget (i + 1)]
       have hne1 : n - 1 ≠ i := by omega
       rw [if_neg hne1]
       by_cases hcase : n - 1 = i + 1
       · rw [if_pos hcase]
         calc mn + (i : ℝ) * step
             < mn + ((n - 1 : ℕ) : ℝ) * step := hmono i (n - 1) (by omega)
           _ = mx := hlast_val
       · rw [if_neg hcase]
         exact hmono i (i + 1) (by omega))
    | -- head
      (rw [List.head?_eq_getElem?, hget? 0 (by omega)]
       have hne : n - 1 ≠ 0 := by omega
       simp [hne])
    | -- last
      (rw [List.getLast?_eq_getElem?, hlen, hget? (n - 1) (by omega)]
       simp)
  }

/-- Witness for C4 at the concrete sampler `n = 3` on `[0, 1]`. -/
theorem uniform_sampler_sample_spec_witness :
    ∃ g : List ℝ, (UniformSampler.mk 3).sample 0 1 = .ok g ∧
      g.length = (UniformSampler.mk 3).n ∧ List.Chain' (· < ·) g ∧
      g.head? = some 0 ∧ g.getLast? = some 1 :=
  uniform_sampler_sample_spec ⟨3⟩ 0 1 (by norm_num) (by norm_num)

/-!
Antecedent-evaluation lemmas (C7).
-/

theorem variable_eval_ok_bounds {v : Variable} (hv : VarValidated v)
    {tname : String} (ht : (alookup tname v.terms).isSome) {x : ℝ}
    (hx1 : v.min ≤ x) (hx2 : x ≤ v.max) :
    ∃ y, v.eval tname x = .ok y ∧ 0 ≤ y ∧ y ≤ 1 := by
  obtain ⟨t, hts⟩ := Option.isSome_iff_exists.mp ht
  refine ⟨t.eval x, ?_, ?_⟩
  · unfold Variable.eval
    simp only [hts]
    rw [if_neg]
    push_neg
    exact ⟨hx2, hx1⟩
  · exact shape_eval_bounds (hv _ (alookup_mem hts)) x

/-- C7: evaluation of a well-formed antecedent — one whose atoms all
refer to registered variables and terms, with the crisp input covering
each referenced variable with an in-domain value — succeeds and yields
a value in `[0, 1]`. -/
theorem eval_antecedent_ok_bounded (ant : Antecedent)
    (input : List (String × ℝ)) (vars : List (String × Variable))
    (hvars : VarsValidated vars) (hcov : AntCovered input vars ant) :
    ∃ y, eval_antecedent ant input vars = .ok y ∧ 0 ≤ y ∧ y ≤ 1 := by
  induction ant with
  | Atom var term =>
    obtain ⟨v, hvl, ht, x, hxl, hx1, hx2⟩ := hcov
    obtain ⟨y, hy, h0, h1⟩ :=
      variable_eval_ok_bounds (hvars _ (alookup_mem hvl)) ht hx1 hx2
    refine ⟨y, ?_, h0, h1⟩
    simp only [eval_antecedent, hvl, hxl]
    exact hy
  | And a b iha ihb =>
    obtain ⟨hca, hcb⟩ := hcov
    obtain ⟨ya, hya, ha0, ha1⟩ := iha hca
    obtain ⟨yb, hyb, hb0, hb1⟩ := ihb hcb
    refine ⟨min ya yb, ?_, le_min ha0 hb0, min_le_of_left_le ha1⟩
    simp only [eval_antecedent, hya, hyb]
  | Or a b iha ihb =>
    obtain ⟨hca, hcb⟩ := hcov
    obtain ⟨ya, hya, ha0, ha1⟩ := iha hca
    obtain ⟨yb, hyb, hb0, hb1⟩ := ihb hcb
    refine ⟨max ya yb, ?_, le_max_of_le_left ha0, max_le ha1 hb1⟩
    simp only [eval_antecedent, hya, hyb]
  | Not a iha =>
    obtain ⟨ya, hya, ha0, ha1⟩ := iha hcov
    refine ⟨1 - ya, ?_, by linarith, by linarith⟩
    simp only [eval_antecedent, hya]

/-- Witness for C7 at the concrete antecedent `temp is hot` with
`temp` on `[-10, 10]`, `hot = Triangular(0, 5, 10)` and input
`temp = 7.5`. -/
theorem eval_antecedent_ok_bounded_witness :
    ∃ y, eval_antecedent (.Atom "temp" "hot") [("temp", 7.5)]
        [("temp", ⟨-10, 10, [("hot", ⟨"hot", .triangular 0 5 10⟩)]⟩)] =
          .ok y ∧ 0 ≤ y ∧ y ≤ 1 := by
  apply eval_antecedent_ok_bounded
  · intro p hp
    simp only [List.mem_singleton] at hp
    subst hp
    intro q hq
    simp only [List.mem_singleton] at hq
    subst hq
    show (0 : ℝ) < 5 ∧ (5 : ℝ) < 10
    norm_num
  · simp only [AntCovered]
    refine ⟨⟨-10, 10, [("hot", ⟨"hot", Shape.triangular 0 5 10⟩)]⟩,
      rfl, rfl, 7.5, rfl, by norm_num, by norm_num⟩

/-!
Implication lemmas (C9).
-/

theorem exMapM_ok_of_forall {α β : Type} {f : α → Except FuzzyError β}
    {l : List α} (h : ∀ a ∈ l, ∃ b, f a = .ok b) :
    ∃ l', exMapM f l = .ok l' ∧ l'.length = l.length := by
  induction l with
  | nil => exact ⟨[], rfl, rfl⟩
  | cons a rest ih =>
    obtain ⟨b, hb⟩ := h a (List.mem_cons_self a rest)
    obtain ⟨l', hl', hlen⟩ := ih (fun x hx => h x (List.mem_cons_of_mem a hx))
    refine ⟨b :: l', ?_, by simp [hlen]⟩
    simp only [exMapM, hb, hl']

theorem implicateGrid_bounds {dmin dmax : ℝ} (h : dmin < dmax) {n : ℕ}
    {x : ℝ} (hx : x ∈ implicateGrid dmin dmax n) :
    dmin ≤ x ∧ x ≤ dmax := by
  obtain ⟨k, hk, rfl⟩ := List.mem_map.mp hx
  rw [List.mem_range] at hk
  have hn0 : 0 < n := lt_of_le_of_lt (Nat.zero_le k) hk
  have hnR : (0 : ℝ) < (n : ℝ) := by exact_mod_cast hn0
  have hstep : 0 ≤ (dmax - dmin) / (n : ℝ) :=
    div_nonneg (by linarith) hnR.le
  constructor
  · nlinarith [mul_nonneg (Nat.cast_nonneg k : (0:ℝ) ≤ (k:ℝ)) hstep]
  · have hkn : (k : ℝ) ≤ (n : ℝ) := by exact_mod_cast hk.le
    have hcancel : (n : ℝ) * ((dmax - dmin) / (n : ℝ)) = dmax - dmin := by
      field_simp
    nlinarith [mul_le_mul_of_nonneg_right hkn hstep]

theorem implicateStep_ok {vars : List (String × Variable)} {alpha : ℝ}
    {n : ℕ} {c : Consequent} {v : Variable}
    (hv : alookup c.var vars = some v) (hdom : v.min < v.max)
    (ht : (alookup c.term v.terms).isSome) :
    ∃ vec, implicateStep vars alpha n c = .ok vec ∧ vec.length = n := by
  have hall : ∀ x ∈ implicateGrid v.min v.max n, ∃ b,
      implicateSample vars alpha c x = .ok b := by
    intro x hx
    obtain ⟨hx1, hx2⟩ := implicateGrid_bounds hdom hx
    obtain ⟨t, hts⟩ := Option.isSome_iff_exists.mp ht
    refine ⟨min (t.eval x) alpha, ?_⟩
    unfold implicateSample
    simp only [hv, Variable.eval, hts]
    rw [if_neg]
    push_neg
    exact ⟨hx2, hx1⟩
  obtain ⟨vec, hvec, hlen⟩ := exMapM_ok_of_forall hall
  refine ⟨vec, ?_, ?_⟩
  · unfold implicateStep
    simp only [hv]
    exact hvec
  · rw [hlen]
    simp [implicateGrid]

theorem implicateAux_ok {vars : List (String × Variable)} {alpha : ℝ}
    {n : ℕ} {cs : List Consequent}
    (h : ∀ c ∈ cs, ∃ v, alookup c.var vars = some v ∧
      v.min < v.max ∧ (alookup c.term v.terms).isSome) :
    ∀ acc, ∃ m, implicateAux vars alpha n cs acc = .ok m := by
  induction cs with
  | nil => exact fun acc => ⟨acc, rfl⟩
  | cons c rest ih =>
    intro acc
    obtain ⟨v, hv, hdom, ht⟩ := h c (List.mem_cons_self c rest)
    obtain ⟨vec, hvec, _⟩ := @implicateStep_ok vars alpha n c v hv hdom ht
    obtain ⟨m, hm⟩ := ih (fun x hx => h x (List.mem_cons_of_mem c hx))
      (insertAssoc c.var vec acc)
    exact ⟨m, by simp only [implicateAux, hvec, hm]⟩

/-- C9: when every consequent of a rule refers to a registered variable
with a strictly ordered domain and a registered term, every sample
`x = dom_min + k·(dom_max−dom_min)/n` for `0 ≤ k < n` lies inside the
inclusive domain, so `Variable::eval`'s out-of-domain branch is
unreachable and `Rule::implicate` succeeds (in particular it never
returns an out-of-domain error). -/
theorem implicate_ok_no_out_of_domain (r : Rule) (alpha : ℝ)
    (vars : List (String × Variable)) (s : UniformSampler)
    (hres : ConsequentsResolvable vars r) :
    (∀ c ∈ r.consequent, ∀ v, alookup c.var vars = some v →
      ∀ x ∈ implicateGrid v.min v.max s.n, v.min ≤ x ∧ x ≤ v.max) ∧
    ∃ m, r.implicate alpha vars s = .ok m := by
  constructor
  · intro c hc v hv x hx
    obtain ⟨v', hv', hdom, _⟩ := hres c hc
    rw [hv'] at hv
    cases hv
    exact implicateGrid_bounds hdom hx
  · exact implicateAux_ok hres []

/-- Witness for C9 at a concrete one-consequent rule over the variable
`fan` on `[0, 10]` with term `hi = Triangular(0, 5, 10)`. -/
theorem implicate_ok_no_out_of_domain_witness :
    (∀ c ∈ (Rule.mk (.Atom "a" "b") [⟨"fan", "hi"⟩]).consequent,
      ∀ v, alookup c.var
        [("fan", (⟨0, 10, [("hi", ⟨"hi", Shape.triangular 0 5 10⟩)]⟩ : Variable))] =
          some v →
      ∀ x ∈ implicateGrid v.min v.max (UniformSampler.mk 2).n,
        v.min ≤ x ∧ x ≤ v.max) ∧
    ∃ m, (Rule.mk (.Atom "a" "b") [⟨"fan", "hi"⟩]).implicate 1
      [("fan", (⟨0, 10, [("hi", ⟨"hi", Shape.triangular 0 5 10⟩)]⟩ : Variable))]
      (UniformSampler.mk 2) = .ok m := by
  apply implicate_ok_no_out_of_domain
  unfold ConsequentsResolvable
  intro c hc
  simp only [List.mem_singleton] at hc
  subst hc
  exact ⟨⟨0, 10, [("hi", ⟨"hi", Shape.triangular 0 5 10⟩)]⟩, rfl, by norm_num, by rfl⟩

/-!
IEEE defuzzification lemmas (C6).
-/

theorem centroidSumsF_zero (vmin step : FFloat) (j : List FFloat)
    (hz : ∀ y ∈ j, y = FFloat.fin 0) :
    ∀ (l : ℕ) (sx s : FFloat), s = FFloat.fin 0 →
      (sx = FFloat.fin 0 ∨ sx = FFloat.nan) →
      (centroidSumsF vmin step j l (sx, s)).2 = FFloat.fin 0 ∧
      ((centroidSumsF vmin step j l (sx, s)).1 = FFloat.fin 0 ∨
        (centroidSumsF vmin step j l (sx, s)).1 = FFloat.nan) := by
  induction j with
  | nil =>
    intro l sx s hs hsx
    subst hs
    exact ⟨rfl, hsx⟩
  | cons k rest ih =>
    intro l sx s hs hsx
    have hk : k = FFloat.fin 0 := hz k (List.mem_cons_self k rest)
    subst hk
    subst hs
    simp only [centroidSumsF]
    apply ih (fun y hy => hz y (List.mem_cons_of_mem _ hy))
    · show fadd (FFloat.fin 0) (FFloat.fin 0) = FFloat.fin 0
      simp [fadd]
    · have hx : ∀ x : FFloat, fmul x (FFloat.fin 0) = FFloat.fin 0 ∨
          fmul x (FFloat.fin 0) = FFloat.nan := by
        intro x
        cases x <;> simp [fmul]
      rcases hsx with h | h <;>
        rcases hx (fadd vmin (fmul step (.fin (l : ℝ)))) with h2 | h2 <;>
          subst h <;> rw [h2] <;> simp [fadd]

theorem centroidF_zero (v : FVariable) (j : List FFloat)
    (hz : ∀ y ∈ j, y = FFloat.fin 0) : centroidF v j = FFloat.nan := by
  unfold centroidF
  obtain ⟨h2, h1⟩ := centroidSumsF_zero
    v.min (fdiv (fsub v.max v.min) (.fin ((j.length : ℝ) - 1))) j hz
    0 (.fin 0) (.fin 0) rfl (Or.inl rfl)
  rw [h2]
  rcases h1 with h | h <;> rw [h] <;> simp [fdiv]

theorem defuzzAuxF_ok {vars : List (String × FVariable)} :
    ∀ (agg : List (String × List FFloat)) (acc : List (String × FFloat)),
      (∀ p ∈ agg, (alookup p.1 vars).isSome) →
      ∃ d, defuzzAuxF vars agg acc = .ok d := by
  intro agg
  induction agg with
  | nil => exact fun acc _ => ⟨acc, rfl⟩
  | cons p rest ih =>
    intro acc hcov
    obtain ⟨i, j⟩ := p
    obtain ⟨v, hv⟩ := Option.isSome_iff_exists.mp
      (hcov (i, j) (List.mem_cons_self _ _))
    obtain ⟨d, hd⟩ := ih (insertAssoc i (centroidF v j) acc)
      (fun q hq => hcov q (List.mem_cons_of_mem _ hq))
    refine ⟨d, ?_⟩
    simp only [defuzzAuxF, hv]
    exact hd

theorem defuzzAuxF_lookup_none {vars : List (String × FVariable)}
    {key : String} :
    ∀ {agg : List (String × List FFloat)} {acc d},
      alookup key agg = none → defuzzAuxF vars agg acc = .ok d →
      alookup key d = alookup key acc := by
  intro agg
  induction agg with
  | nil =>
    intro acc d _ hd
    cases hd
    rfl
  | cons p rest ih =>
    intro acc d hnone hd
    obtain ⟨i, j⟩ := p
    have hne : ¬ i = key := by
      intro h
      simp [alookup, h] at hnone
    have hrest : alookup key rest = none := by
      simpa [alookup, hne] using hnone
    cases hv : alookup i vars with
    | none =>
      rw [defuzzAuxF, hv] at hd
      cases hd
    | some v =>
      rw [defuzzAuxF, hv] at hd
      rw [ih hrest hd, alookup_insertAssoc, if_neg hne]

theorem defuzzAuxF_lookup_some {vars : List (String × FVariable)}
    {key : String} {j0 : List FFloat} {v0 : FVariable} :
    ∀ {agg : List (String × List FFloat)} {acc d},
      (agg.map Prod.fst).Nodup →
      alookup key agg = some j0 → alookup key vars = some v0 →
      defuzzAuxF vars agg acc = .ok d →
      alookup key d = some (centroidF v0 j0) := by
  intro agg
  induction agg with
  | nil =>
    intro acc d _ hsome _
    simp [alookup] at hsome
  | cons p rest ih =>
    intro acc d hnd hsome hv0 hd
    obtain ⟨i, j⟩ := p
    by_cases hik : i = key
    · subst hik
      have hj : j = j0 := by
        simpa [alookup] using hsome
      subst hj
      rw [defuzzAuxF, hv0] at hd
      rw [List.map_cons] at hnd
      have hnotin : i ∉ rest.map Prod.fst := (List.nodup_cons.mp hnd).1
      have hrest : alookup i rest = none := alookup_eq_none_iff.mpr hnotin
      rw [defuzzAuxF_lookup_none hrest hd, alookup_insertAssoc, if_pos rfl]
    · have hrest : alookup key rest = some j0 := by
        simpa [alookup, hik] using hsome
      rw [List.map_cons] at hnd
      have hnd' : (rest.map Prod.fst).Nodup := (List.nodup_cons.mp hnd).2
      cases hv : alookup i vars with
      | none =>
        rw [defuzzAuxF, hv] at hd
        cases hd
      | some v =>
        rw [defuzzAuxF, hv] at hd
        exact ih hnd' hrest hv0 hd

/-- C6: if an aggregated sample vector is all zeros (zero aggregate
mass), defuzzification does not fail for that output variable: the
whole call returns `Ok` (provided every aggregated key has a variable)
and the value bound to that key is NaN (`0.0 / 0.0`). -/
theorem defuzzification_zero_mass_nan (agg : List (String × List FFloat))
    (vars : List (String × FVariable)) (key : String) (vec : List FFloat)
    (hnd : (agg.map Prod.fst).Nodup)
    (hcov : ∀ p ∈ agg, (alookup p.1 vars).isSome)
    (hkey : alookup key agg = some vec)
    (hzero : ∀ y ∈ vec, y = FFloat.fin 0) :
    ∃ d, defuzzificationF agg vars = .ok d ∧
      alookup key d = some FFloat.nan := by
  obtain ⟨d, hd⟩ := defuzzAuxF_ok agg [] hcov
  refine ⟨d, hd, ?_⟩
  have hv : (alookup key vars).isSome := hcov _ (alookup_mem hkey)
  obtain ⟨v0, hv0⟩ := Option.isSome_iff_exists.mp hv
  rw [defuzzAuxF_lookup_some hnd hkey hv0 hd, centroidF_zero v0 vec hzero]

/-- Witness for C6 at the concrete all-zero aggregate
`{"a" ↦ [0.0, 0.0]}` with `a` on `[0, 1]`. -/
theorem defuzzification_zero_mass_nan_witness :
    ∃ d, defuzzificationF [("a", [FFloat.fin 0, FFloat.fin 0])]
        [("a", ⟨FFloat.fin 0, FFloat.fin 1⟩)] = .ok d ∧
      alookup "a" d = some FFloat.nan :=
  defuzzification_zero_mass_nan _ _ "a" [FFloat.fin 0, FFloat.fin 0]
    (by simp)
    (by
      intro p hp
      simp only [List.mem_singleton] at hp
      subst hp
      rfl)
    rfl
    (by
      intro y hy
      simp only [List.mem_cons, List.mem_singleton, List.not_mem_nil,
        or_false] at hy
      rcases hy with h | h <;> exact h)

/-!
Aggregation machinery (C2).
-/

theorem exMapM_mem_ok {α β : Type} {f : α → Except FuzzyError β}
    {l : List α} {out : List β} (h : exMapM f l = .ok out) :
    ∀ a ∈ l, ∃ b, f a = .ok b := by
  induction l generalizing out with
  | nil => intro a ha; cases ha
  | cons a0 rest ih =>
    intro a ha
    cases hf : f a0 with
    | error e =>
      rw [exMapM, hf] at h
      cases h
    | ok b0 =>
      rw [exMapM, hf] at h
      cases hrest : exMapM f rest with
      | error e =>
        rw [hrest] at h
        cases h
      | ok bs =>
        rw [hrest] at h
        rcases List.mem_cons.mp ha with rfl | ha'
        · exact ⟨b0, hf⟩
        · exact ih hrest a ha'

theorem exMapM_eq_map_okD {α β : Type} {f : α → Except FuzzyError β}
    {l : List α} {out : List β} (h : exMapM f l = .ok out) (d : β) :
    out = l.map (fun a => okD (f a) d) := by
  induction l generalizing out with
  | nil =>
    cases h
    rfl
  | cons a0 rest ih =>
    cases hf : f a0 with
    | error e =>
      rw [exMapM, hf] at h
      cases h
    | ok b0 =>
      rw [exMapM, hf] at h
      cases hrest : exMapM f rest with
      | error e =>
        rw [hrest] at h
        cases h
      | ok bs =>
        rw [hrest] at h
        cases h
        simp only [List.map_cons]
        rw [← ih hrest]
        simp [okD, hf]

theorem exMapM_ok_length {α β : Type} {f : α → Except FuzzyError β}
    {l : List α} {out : List β} (h : exMapM f l = .ok out) :
    out.length = l.length := by
  induction l generalizing out with
  | nil =>
    cases h
    rfl
  | cons a0 rest ih =>
    cases hf : f a0 with
    | error e =>
      rw [exMapM, hf] at h
      cases h
    | ok b0 =>
      rw [exMapM, hf] at h
      cases hrest : exMapM f rest with
      | error e =>
        rw [hrest] at h
        cases h
      | ok bs =>
        rw [hrest] at h
        cases h
        simp [ih hrest]

theorem aggregationAux_eq (input : List (String × ℝ))
    (vars : List (String × Variable)) (s : UniformSampler) :
    ∀ (rules : List Rule) (acc : List (String × List ℝ)),
      aggregationAux input vars s rules acc =
        match exMapM (ruleOut input vars s) rules with
        | .error e => .error e
        | .ok outs => .ok (outs.foldl mergeMap acc) := by
  intro rules
  induction rules with
  | nil => intro acc; rfl
  | cons r rest ih =>
    intro acc
    cases hr : ruleOut input vars s r with
    | error e =>
      simp only [aggregationAux, exMapM, hr]
    | ok o =>
      simp only [aggregationAux, exMapM, hr]
      rw [ih (mergeMap acc o)]
      cases hrest : exMapM (ruleOut input vars s) rest <;> simp

theorem alookup_mergeEntry (key k : String) (v : List ℝ)
    (acc : List (String × List ℝ)) :
    alookup key (mergeEntry acc k v) =
      if k = key then optMerge (alookup key acc) (some v)
      else alookup key acc := by
  induction acc with
  | nil =>
    by_cases h : k = key <;> simp [mergeEntry, alookup, h, optMerge]
  | cons p rest ih =>
    obtain ⟨k0, w⟩ := p
    simp only [mergeEntry]
    by_cases h0 : k0 = k
    · subst h0
      by_cases h1 : k0 = key
      · subst h1
        simp [alookup, optMerge]
      · simp [alookup, h1]
    · simp only [if_neg h0]
      by_cases h1 : k0 = key
      · subst h1
        have h2 : k ≠ k0 := fun h => h0 h.symm
        simp [alookup, h2, optMerge]
      · simp [alookup, h1, ih]

theorem alookup_mergeMap (key : String) :
    ∀ (o : List (String × List ℝ)), (o.map Prod.fst).Nodup →
      ∀ acc, alookup key (mergeMap acc o) =
        optMerge (alookup key acc) (alookup key o) := by
  intro o
  induction o with
  | nil =>
    intro _ acc
    simp [mergeMap, alookup, optMerge]
  | cons p o' ih =>
    intro hnd acc
    obtain ⟨k0, v0⟩ := p
    rw [List.map_cons] at hnd
    obtain ⟨hnotin, hnd'⟩ := List.nodup_cons.mp hnd
    have hstep : mergeMap acc ((k0, v0) :: o') =
        mergeMap (mergeEntry acc k0 v0) o' := rfl
    rw [hstep, ih hnd' (mergeEntry acc k0 v0)]
    by_cases h0 : k0 = key
    · subst h0
      have ho' : alookup k0 o' = none := alookup_eq_none_iff.mpr hnotin
      rw [ho', alookup_mergeEntry, if_pos rfl]
      simp [alookup, optMerge]
    · rw [alookup_mergeEntry, if_neg h0]
      simp [alookup, h0]

theorem alookup_foldl_mergeMap (key : String) :
    ∀ (outs : List (List (String × List ℝ))) (acc : List (String × List ℝ)),
      (∀ o ∈ outs, (o.map Prod.fst).Nodup) →
      alookup key (outs.foldl mergeMap acc) =
        (outs.map (alookup key)).foldl optMerge (alookup key acc) := by
  intro outs
  induction outs with
  | nil => intro acc _; rfl
  | cons o outs' ih =>
    intro acc hnd
    rw [List.foldl_cons, List.map_cons, List.foldl_cons,
      ih (mergeMap acc o) (fun q hq => hnd q (List.mem_cons_of_mem _ hq)),
      alookup_mergeMap key o (hnd o (List.mem_cons_self _ _)) acc]

theorem optMerge_right_comm {n : ℕ} {o1 o2 : Option (List ℝ)}
    (h1 : o1 = none ∨ ∃ v, o1 = some v ∧ v.length = n)
    (h2 : o2 = none ∨ ∃ v, o2 = some v ∧ v.length = n) :
    ∀ a, optMerge (optMerge a o1) o2 = optMerge (optMerge a o2) o1 := by
  intro a
  rcases h1 with rfl | ⟨v1, rfl, hl1⟩
  · simp [optMerge]
  rcases h2 with rfl | ⟨v2, rfl, hl2⟩
  · simp [optMerge]
  cases a with
  | none =>
    simp only [optMerge]
    rw [elements_max_comm_of_length_eq (hl1.trans hl2.symm)]
  | some w =>
    simp only [optMerge]
    rw [elements_max_right_comm]

theorem foldl_perm_of_comm {α β : Type} {f : β → α → β} :
    ∀ {l₁ l₂ : List α}, l₁.Perm l₂ →
      (∀ x ∈ l₁, ∀ y ∈ l₁, ∀ b, f (f b x) y = f (f b y) x) →
      ∀ b, l₁.foldl f b = l₂.foldl f b := by
  intro l₁ l₂ hp
  induction hp with
  | nil => intro _ b; rfl
  | cons x p ih =>
    intro hc b
    simp only [List.foldl_cons]
    exact ih (fun a ha c hcmem d =>
      hc a (List.mem_cons_of_mem _ ha) c (List.mem_cons_of_mem _ hcmem) d)
      (f b x)
  | swap x y l =>
    intro hc b
    simp only [List.foldl_cons]
    rw [hc x (by simp) y (by simp) b]
  | trans p1 p2 ih1 ih2 =>
    intro hc b
    rw [ih1 hc b]
    refine ih2 (fun a ha c hcmem d => ?_) b
    exact hc a (p1.mem_iff.mpr ha) c (p1.mem_iff.mpr hcmem) d

theorem insertAssoc_keys {β : Type} (k : String) (v : β) :
    ∀ m : List (String × β), (insertAssoc k v m).map Prod.fst =
      if (alookup k m).isSome then m.map Prod.fst
      else m.map Prod.fst ++ [k] := by
  intro m
  induction m with
  | nil => simp [insertAssoc, alookup]
  | cons p rest ih =>
    obtain ⟨k0, v0⟩ := p
    simp only [insertAssoc, alookup]
    by_cases h0 : k0 = k
    · subst h0
      simp
    · simp only [if_neg h0, List.map_cons]
      rw [ih]
      by_cases hs : (alookup k rest).isSome
      · simp [hs]
      · simp [hs]

theorem insertAssoc_nodup {β : Type} (k : String) (v : β)
    {m : List (String × β)} (h : (m.map Prod.fst).Nodup) :
    ((insertAssoc k v m).map Prod.fst).Nodup := by
  rw [insertAssoc_keys]
  by_cases hs : (alookup k m).isSome
  · simp [hs, h]
  · have hnotin : k ∉ m.map Prod.fst :=
      alookup_eq_none_iff.mp (Option.not_isSome_iff_eq_none.mp hs)
    rw [if_neg hs, List.nodup_append]
    refine ⟨h, List.nodup_singleton k, ?_⟩
    intro a ha hb
    rw [List.mem_singleton] at hb
    subst hb
    exact hnotin ha

theorem insertAssoc_values {β : Type} (k : String) (v : β) :
    ∀ (m : List (String × β)) (p : String × β), p ∈ insertAssoc k v m →
      p.2 = v ∨ p ∈ m := by
  intro m
  induction m with
  | nil =>
    intro p hp
    simp only [insertAssoc, List.mem_singleton] at hp
    subst hp
    exact Or.inl rfl
  | cons q rest ih =>
    intro p hp
    obtain ⟨k0, v0⟩ := q
    simp only [insertAssoc] at hp
    by_cases h0 : k0 = k
    · rw [if_pos h0] at hp
      rcases List.mem_cons.mp hp with rfl | h
      · exact Or.inl rfl
      · exact Or.inr (List.mem_cons_of_mem _ h)
    · rw [if_neg h0] at hp
      rcases List.mem_cons.mp hp with rfl | h
      · exact Or.inr (List.mem_cons_self _ _)
      · rcases ih p h with h2 | h2
        · exact Or.inl h2
        · exact Or.inr (List.mem_cons_of_mem _ h2)

theorem implicateStep_ok_length {vars : List (String × Variable)}
    {alpha : ℝ} {n : ℕ} {c : Consequent} {vec : List ℝ}
    (h : implicateStep vars alpha n c = .ok vec) : vec.length = n := by
  unfold implicateStep at h
  cases hv : alookup c.var vars with
  | none =>
    rw [hv] at h
    cases h
  | some v =>
    rw [hv] at h
    rw [exMapM_ok_length h]
    simp [implicateGrid]

theorem implicateAux_props {vars : List (String × Variable)} {alpha : ℝ}
    {n : ℕ} :
    ∀ (cs : List Consequent) (acc m : List (String × List ℝ)),
      (acc.map Prod.fst).Nodup → (∀ p ∈ acc, p.2.length = n) →
      implicateAux vars alpha n cs acc = .ok m →
      (m.map Prod.fst).Nodup ∧ ∀ p ∈ m, p.2.length = n := by
  intro cs
  induction cs with
  | nil =>
    intro acc m hnd hlen h
    cases h
    exact ⟨hnd, hlen⟩
  | cons c rest ih =>
    intro acc m hnd hlen h
    cases hstep : implicateStep vars alpha n c with
    | error e =>
      rw [implicateAux, hstep] at h
      cases h
    | ok vec =>
      rw [implicateAux, hstep] at h
      refine ih _ m (insertAssoc_nodup _ _ hnd) ?_ h
      intro p hp
      rcases insertAssoc_values c.var vec acc p hp with h2 | h2
      · rw [h2]
        exact implicateStep_ok_length hstep
      · exact hlen p h2

theorem ruleOut_props {input : List (String × ℝ)}
    {vars : List (String × Variable)} {s : UniformSampler} {r : Rule}
    {o : List (String × List ℝ)} (h : ruleOut input vars s r = .ok o) :
    (o.map Prod.fst).Nodup ∧ ∀ p ∈ o, p.2.length = s.n := by
  unfold ruleOut at h
  cases ha : r.activation input vars with
  | error e =>
    rw [ha] at h
    cases h
  | ok alpha =>
    rw [ha] at h
    unfold Rule.implicate at h
    exact implicateAux_props r.consequent [] o (by simp) (by simp) h

theorem mergeEntry_keys (k : String) (v : List ℝ) :
    ∀ acc : List (String × List ℝ), (mergeEntry acc k v).map Prod.fst =
      if (alookup k acc).isSome then acc.map Prod.fst
      else acc.map Prod.fst ++ [k] := by
  intro acc
  induction acc with
  | nil => simp [mergeEntry, alookup]
  | cons p rest ih =>
    obtain ⟨k0, v0⟩ := p
    simp only [mergeEntry, alookup]
    by_cases h0 : k0 = k
    · subst h0
      simp
    · simp only [if_neg h0, List.map_cons]
      rw [ih]
      by_cases hs : (alookup k rest).isSome
      · simp [hs]
      · simp [hs]

theorem mergeEntry_nodup (k : String) (v : List ℝ)
    {acc : List (String × List ℝ)} (h : (acc.map Prod.fst).Nodup) :
    ((mergeEntry acc k v).map Prod.fst).Nodup := by
  rw [mergeEntry_keys]
  by_cases hs : (alookup k acc).isSome
  · simp [hs, h]
  · have hnotin : k ∉ acc.map Prod.fst :=
      alookup_eq_none_iff.mp (Option.not_isSome_iff_eq_none.mp hs)
    rw [if_neg hs, List.nodup_append]
    refine ⟨h, List.nodup_singleton k, ?_⟩
    intro a ha hb
    rw [List.mem_singleton] at hb
    subst hb
    exact hnotin ha

theorem mergeMap_nodup :
    ∀ (o acc : List (String × List ℝ)), (acc.map Prod.fst).Nodup →
      ((mergeMap acc o).map Prod.fst).Nodup := by
  intro o
  induction o with
  | nil => exact fun acc h => h
  | cons p o' ih =>
    intro acc h
    exact ih (mergeEntry acc p.1 p.2) (mergeEntry_nodup p.1 p.2 h)

theorem foldl_mergeMap_nodup :
    ∀ (outs : List (List (String × List ℝ)))
      (acc : List (String × List ℝ)), (acc.map Prod.fst).Nodup →
      ((outs.foldl mergeMap acc).map Prod.fst).Nodup := by
  intro outs
  induction outs with
  | nil => exact fun acc h => h
  | cons o outs' ih =>
    intro acc h
    exact ih (mergeMap acc o) (mergeMap_nodup o acc h)

theorem defuzzAux_ok {vars : List (String × Variable)} :
    ∀ (agg : List (String × List ℝ)) (acc : List (String × ℝ)),
      (∀ p ∈ agg, (alookup p.1 vars).isSome) →
      ∃ d, defuzzAux vars agg acc = .ok d := by
  intro agg
  induction agg with
  | nil => exact fun acc _ => ⟨acc, rfl⟩
  | cons p rest ih =>
    intro acc hcov
    obtain ⟨i, j⟩ := p
    obtain ⟨v, hv⟩ := Option.isSome_iff_exists.mp
      (hcov (i, j) (List.mem_cons_self _ _))
    obtain ⟨d, hd⟩ := ih (insertAssoc i (centroid v j) acc)
      (fun q hq => hcov q (List.mem_cons_of_mem _ hq))
    refine ⟨d, ?_⟩
    simp only [defuzzAux, hv]
    exact hd

theorem defuzzAux_ok_cov {vars : List (String × Variable)} :
    ∀ {agg : List (String × List ℝ)} {acc : List (String × ℝ)} {d},
      defuzzAux vars agg acc = .ok d →
      ∀ p ∈ agg, (alookup p.1 vars).isSome := by
  intro agg
  induction agg with
  | nil =>
    intro acc d _ p hp
    cases hp
  | cons q rest ih =>
    intro acc d hd p hp
    obtain ⟨i, j⟩ := q
    cases hv : alookup i vars with
    | none =>
      rw [defuzzAux, hv] at hd
      cases hd
    | some v =>
      rw [defuzzAux, hv] at hd
      rcases List.mem_cons.mp hp with rfl | hp'
      · simp [hv]
      · exact ih hd p hp'

theorem defuzzAux_lookup_none {vars : List (String × Variable)}
    {key : String} :
    ∀ {agg : List (String × List ℝ)} {acc d},
      alookup key agg = none → defuzzAux vars agg acc = .ok d →
      alookup key d = alookup key acc := by
  intro agg
  induction agg with
  | nil =>
    intro acc d _ hd
    cases hd
    rfl
  | cons p rest ih =>
    intro acc d hnone hd
    obtain ⟨i, j⟩ := p
    have hne : ¬ i = key := by
      intro h
      simp [alookup, h] at hnone
    have hrest : alookup key rest = none := by
      simpa [alookup, hne] using hnone
    cases hv : alookup i vars with
    | none =>
      rw [defuzzAux, hv] at hd
      cases hd
    | some v =>
      rw [defuzzAux, hv] at hd
      rw [ih hrest hd, alookup_insertAssoc, if_neg hne]

theorem defuzzAux_lookup_some {vars : List (String × Variable)}
    {key : String} {j0 : List ℝ} {v0 : Variable} :
    ∀ {agg : List (String × List ℝ)} {acc d},
      (agg.map Prod.fst).Nodup →
      alookup key agg = some j0 → alookup key vars = some v0 →
      defuzzAux vars agg acc = .ok d →
      alookup key d = some (centroid v0 j0) := by
  intro agg
  induction agg with
  | nil =>
    intro acc d _ hsome _
    simp [alookup] at hsome
  | cons p rest ih =>
    intro acc d hnd hsome hv0 hd
    obtain ⟨i, j⟩ := p
    by_cases hik : i = key
    · subst hik
      have hj : j = j0 := by
        simpa [alookup] using hsome
      subst hj
      rw [defuzzAux, hv0] at hd
      rw [List.map_cons] at hnd
      have hnotin : i ∉ rest.map Prod.fst := (List.nodup_cons.mp hnd).1
      have hrest : alookup i rest = none := alookup_eq_none_iff.mpr hnotin
      rw [defuzzAux_lookup_none hrest hd, alookup_insertAssoc, if_pos rfl]
    · have hrest : alookup key rest = some j0 := by
        simpa [alookup, hik] using hsome
      rw [List.map_cons] at hnd
      have hnd' : (rest.map Prod.fst).Nodup := (List.nodup_cons.mp hnd).2
      cases hv : alookup i vars with
      | none =>
        rw [defuzzAux, hv] at hd
        cases hd
      | some v =>
        rw [defuzzAux, hv] at hd
        exact ih hnd' hrest hv0 hd

/-- C2: aggregation is invariant under permutation of the rule list —
whenever `aggregation` succeeds on a rule list, it succeeds on every
permutation of that list with pointwise-equal per-key sample vectors,
and consequently defuzzification of the two aggregates agrees on every
output key. -/
theorem aggregation_perm_invariant (rules' rules : List Rule)
    (input : List (String × ℝ)) (vars : List (String × Variable))
    (s : UniformSampler) (m : List (String × List ℝ))
    (hperm : rules'.Perm rules)
    (hok : aggregation rules input vars s = .ok m) :
    ∃ m', aggregation rules' input vars s = .ok m' ∧
      (∀ key, alookup key m' = alookup key m) ∧
      ∀ (vars2 : List (String × Variable)) (d : List (String × ℝ)),
        defuzzification m vars2 = .ok d →
        ∃ d', defuzzification m' vars2 = .ok d' ∧
          ∀ key, alookup key d' = alookup key d := by
  unfold aggregation at hok
  rw [aggregationAux_eq] at hok
  cases hmm : exMapM (ruleOut input vars s) rules with
  | error e =>
    rw [hmm] at hok
    cases hok
  | ok outs =>
    rw [hmm] at hok
    have hm : outs.foldl mergeMap [] = m := by
      injection hok
    subst hm
    have hall : ∀ r ∈ rules, ∃ o, ruleOut input vars s r = .ok o :=
      exMapM_mem_ok hmm
    have hall' : ∀ r ∈ rules', ∃ o, ruleOut input vars s r = .ok o :=
      fun r hr => hall r (hperm.mem_iff.mp hr)
    obtain ⟨outs', houts', _⟩ := exMapM_ok_of_forall hall'
    have houts_eq : outs =
        rules.map (fun r => okD (ruleOut input vars s r) []) :=
      exMapM_eq_map_okD hmm []
    have houts'_eq : outs' =
        rules'.map (fun r => okD (ruleOut input vars s r) []) :=
      exMapM_eq_map_okD houts' []
    have hperm_outs : outs'.Perm outs := by
      rw [houts_eq, houts'_eq]
      exact hperm.map _
    have hprops : ∀ o ∈ outs,
        (o.map Prod.fst).Nodup ∧ ∀ p ∈ o, p.2.length = s.n := by
      intro o ho
      rw [houts_eq] at ho
      obtain ⟨r, hr, rfl⟩ := List.mem_map.mp ho
      obtain ⟨o', ho'⟩ := hall r hr
      rw [ho']
      simp only [okD]
      exact ruleOut_props ho'
    have hprops' : ∀ o ∈ outs',
        (o.map Prod.fst).Nodup ∧ ∀ p ∈ o, p.2.length = s.n :=
      fun o ho => hprops o (hperm_outs.mem_iff.mp ho)
    have hlookeq : ∀ key, alookup key (outs'.foldl mergeMap []) =
        alookup key (outs.foldl mergeMap []) := by
      intro key
      rw [alookup_foldl_mergeMap key outs' [] (fun o ho => (hprops' o ho).1),
          alookup_foldl_mergeMap key outs [] (fun o ho => (hprops o ho).1)]
      have hshape : ∀ z ∈ outs'.map (alookup key),
          z = none ∨ ∃ v, z = some v ∧ v.length = s.n := by
        intro z hz
        obtain ⟨o, ho, rfl⟩ := List.mem_map.mp hz
        cases hzo : alookup key o with
        | none => exact Or.inl rfl
        | some v =>
          exact Or.inr ⟨v, rfl, (hprops' o ho).2 _ (alookup_mem hzo)⟩
      exact foldl_perm_of_comm (hperm_outs.map _)
        (fun x hx y hy a => optMerge_right_comm (hshape x hx) (hshape y hy) a)
        (alookup key [])
    refine ⟨outs'.foldl mergeMap [], ?_, hlookeq, ?_⟩
    · unfold aggregation
      rw [aggregationAux_eq, houts']
    · intro vars2 d hdz
      unfold defuzzification at hdz ⊢
      have hnodup_m : ((outs.foldl mergeMap []).map Prod.fst).Nodup :=
        foldl_mergeMap_nodup outs [] (by simp)
      have hnodup_m' : ((outs'.foldl mergeMap []).map Prod.fst).Nodup :=
        foldl_mergeMap_nodup outs' [] (by simp)
      have hcov_m : ∀ p ∈ outs.foldl mergeMap [],
          (alookup p.1 vars2).isSome := defuzzAux_ok_cov hdz
      have hcov_m' : ∀ p ∈ outs'.foldl mergeMap [],
          (alookup p.1 vars2).isSome := by
        intro p hp
        have h1 : (alookup p.1 (outs'.foldl mergeMap [])).isSome :=
          alookup_isSome_of_mem hp
        rw [hlookeq p.1] at h1
        obtain ⟨w, hw⟩ := Option.isSome_iff_exists.mp h1
        exact hcov_m (p.1, w) (alookup_mem hw)
      obtain ⟨d', hd'⟩ := defuzzAux_ok (outs'.foldl mergeMap []) [] hcov_m'
      refine ⟨d', hd', ?_⟩
      intro key
      cases hk : alookup key (outs'.foldl mergeMap []) with
      | none =>
        have hk2 : alookup key (outs.foldl mergeMap []) = none := by
          rw [← hlookeq key]
          exact hk
        rw [defuzzAux_lookup_none hk hd', defuzzAux_lookup_none hk2 hdz]
      | some j =>
        have hk2 : alookup key (outs.foldl mergeMap []) = some j := by
          rw [← hlookeq key]
          exact hk
        have hv2 : (alookup key vars2).isSome := hcov_m _ (alookup_mem hk2)
        obtain ⟨v2, hv2'⟩ := Option.isSome_iff_exists.mp hv2
        rw [defuzzAux_lookup_some hnodup_m' hk hv2' hd',
            defuzzAux_lookup_some hnodup_m hk2 hv2' hdz]

/-- Witness for C2: swapping two concrete rules (with empty consequent
lists, over a one-variable system with input `t = 7`) leaves the
aggregation result and its defuzzification unchanged. -/
theorem aggregation_perm_invariant_witness :
    ∃ m', aggregation
        [Rule.mk (.Not (.Atom "t" "h")) [], Rule.mk (.Atom "t" "h") []]
        [("t", 7)]
        [("t", (⟨0, 10, [("h", ⟨"h", Shape.triangular 0 5 10⟩)]⟩ : Variable))]
        ⟨2⟩ = .ok m' ∧
      (∀ key, alookup key m' =
        alookup key ([] : List (String × List ℝ))) ∧
      ∀ (vars2 : List (String × Variable)) (d : List (String × ℝ)),
        defuzzification [] vars2 = .ok d →
        ∃ d', defuzzification m' vars2 = .ok d' ∧
          ∀ key, alookup key d' = alookup key d :=
  aggregation_perm_invariant
    [Rule.mk (.Not (.Atom "t" "h")) [], Rule.mk (.Atom "t" "h") []]
    [Rule.mk (.Atom "t" "h") [], Rule.mk (.Not (.Atom "t" "h")) []]
    [("t", 7)]
    [("t", (⟨0, 10, [("h", ⟨"h", Shape.triangular 0 5 10⟩)]⟩ : Variable))]
    ⟨2⟩ []
    (List.Perm.swap (Rule.mk (.Atom "t" "h") [])
      (Rule.mk (.Not (.Atom "t" "h")) []) [])
    (by norm_num [aggregation, aggregationAux, ruleOut, Rule.activation,
        eval_antecedent, alookup, Variable.eval, Rule.implicate,
        implicateAux, mergeMap, Shape.eval, abs_sub_lt_iff])

end

end Rustfuzz
